import Mathlib

/-!
Verification of the ingestion-and-retrieval core of the study-buddy-agent
repository.  Python strings are modelled as lists of characters; the
whitespace and alphanumeric character classes are modelled over ASCII.
Generators are modelled as the list of yielded values; the one loop of the
code whose termination is in question (the character-fallback loop of
chunk_text) is modelled with fuel together with a flag that records whether
the loop exited by itself.
-/

namespace StudyBuddy

/-- ASCII whitespace characters recognised by the Python str.strip and
str.split operations and by the regex class backslash-s. -/
def pyWS (c : Char) : Bool :=
  c = ' ' || c = '\t' || c = '\n' || c = '\r' || c = '\x0b' || c = '\x0c'

/-- The character class of the regex "[ \t]+" used by clean_text. -/
def spTab (c : Char) : Bool :=
  c = ' ' || c = '\t'

/-- ASCII alphanumeric test, modelling the Python str.isalnum predicate. -/
def isAlnumA (c : Char) : Bool :=
  ('a' ≤ c && c ≤ 'z') || ('A' ≤ c && c ≤ 'Z') || ('0' ≤ c && c ≤ '9')

/-- ASCII lowercasing of one character, modelling Python str.lower. -/
def lower1 (c : Char) : Char :=
  if 'A' ≤ c && c ≤ 'Z' then Char.ofNat (c.toNat + 32) else c

/-- Lowercasing of a string, modelling Python str.lower. -/
def lowerS (l : List Char) : List Char :=
  l.map lower1

/-- Left strip: drop leading whitespace, the first half of Python
str.strip. -/
def lstrip (l : List Char) : List Char :=
  l.dropWhile pyWS

/-- Right strip: drop trailing whitespace, the second half of Python
str.strip, written structurally. -/
def rstrip : List Char → List Char
  | [] => []
  | c :: cs =>
    let r := rstrip cs
    if r = [] && pyWS c then [] else c :: r

/-- Python str.strip: remove leading and trailing whitespace. -/
def strip (l : List Char) : List Char :=
  rstrip (lstrip l)

/-- Accumulating worker for whitespace splitting (w is the current word,
reversed). -/
def pySplitGo : List Char → List Char → List (List Char)
  | [], w => if w = [] then [] else [w.reverse]
  | c :: cs, w =>
    if pyWS c then
      if w = [] then pySplitGo cs [] else w.reverse :: pySplitGo cs []
    else pySplitGo cs (c :: w)

/-- Python str.split with no argument: split on runs of whitespace and
discard empty pieces. -/
def pySplit (l : List Char) : List (List Char) :=
  pySplitGo l []

/-- Whether pat is a prefix of l, on characters. -/
def startsWith : List Char → List Char → Bool
  | [], _ => true
  | _ :: _, [] => false
  | p :: ps, c :: cs => p = c && startsWith ps cs

/-- Python substring membership (the in operator on strings): pat occurs
contiguously somewhere in l. -/
def isSub (pat : List Char) : List Char → Bool
  | [] => startsWith pat []
  | c :: cs => startsWith pat (c :: cs) || isSub pat cs

/-- Sum of the lengths of the members of a list of strings. -/
def sumLen (l : List (List Char)) : Nat :=
  (l.map List.length).sum

/-- The Python expression " ".join(parts): interleave single spaces. -/
def joinSp (l : List (List Char)) : List Char :=
  List.intercalate [' '] l

/-- The Python expression "\n\n".join(parts): interleave blank lines. -/
def joinBlank (l : List (List Char)) : List Char :=
  List.intercalate ['\n', '\n'] l

/-! ## Text normalizer (src/backend/utils/text_clean.py) -/

/-- Worker for the substitution of the regex "[ \t]+" by a single space:
the Bool records whether the scan is inside a space-tab run that has
already emitted its replacement space. -/
def csAux : Bool → List Char → List Char
  | _, [] => []
  | inRun, c :: cs =>
    if spTab c then
      if inRun then csAux true cs else ' ' :: csAux true cs
    else c :: csAux false cs

/-- re.sub of "[ \t]+" by a single space: each maximal run of spaces and
tabs becomes one space. -/
def collapseSpaces (l : List Char) : List Char :=
  csAux false l

/-- Replacement text for a run of k newlines under the regex substitution
of three or more newlines by two. -/
def emitNl (k : Nat) : List Char :=
  if 3 ≤ k then ['\n', '\n'] else List.replicate k '\n'

/-- Worker for the substitution of three-or-more newlines by two: k counts
the newlines of the run currently being read. -/
def nlAux : Nat → List Char → List Char
  | k, [] => emitNl k
  | k, c :: cs =>
    if c = '\n' then nlAux (k + 1) cs
    else emitNl k ++ c :: nlAux 0 cs

/-- re.sub replacing each maximal run of three or more newlines by exactly
two newlines. -/
def collapseNL (l : List Char) : List Char :=
  nlAux 0 l

/-- clean_text from src/backend/utils/text_clean.py: collapse horizontal
whitespace runs to one space, collapse three-plus newlines to two, and
strip the ends.  The empty-input guard of the source is kept. -/
def clean_text (l : List Char) : List Char :=
  if l = [] then [] else strip (collapseNL (collapseSpaces l))

/-! ## Chunker (src/backend/utils/chunking.py) -/

/-- The sentence-ending characters of the regex "([.!?]+[\s\n]+)". -/
def isEnd (c : Char) : Bool :=
  c = '.' || c = '!' || c = '?'

/-- Leftmost match of the regex "([.!?]+[\s\n]+)" in a string: returns the
text before the match, the matched separator (a maximal punctuation run
followed by the maximal whitespace run), and the text after it, or none
when there is no match.  Written with structural recursion on the scanned
list; positions inside a punctuation run that is not followed by
whitespace cannot start a match, so scanning them one by one is
equivalent to skipping the run. -/
def findM : List Char → Option (List Char × List Char × List Char)
  | [] => none
  | c :: cs =>
    if isEnd c then
      let run := List.takeWhile isEnd (c :: cs)
      let rest := List.dropWhile isEnd (c :: cs)
      let w := List.takeWhile pyWS rest
      if w = [] then
        match findM cs with
        | none => none
        | some (b, s, a) => some (c :: b, s, a)
      else some ([], run ++ w, List.dropWhile pyWS rest)
    else
      match findM cs with
      | none => none
      | some (b, s, a) => some (c :: b, s, a)

/-- Fuelled worker for re.split on the pattern "([.!?]+[\s\n]+)" with the
capture group kept: pieces and captured separators interleaved. -/
def splitSentF : Nat → List Char → List (List Char)
  | 0, l => [l]
  | fuel + 1, l =>
    match findM l with
    | none => [l]
    | some (b, s, a) => b :: s :: splitSentF fuel a

/-- re.split of the sentence-ending pattern, capture group kept.  Each
match consumes at least one character, so length-many units of fuel
always suffice. -/
def splitSent (l : List Char) : List (List Char) :=
  splitSentF (l.length + 1) l

/-- The recombination loop of split_into_sentences: for i in
range(0, len(sentences) - 1, 2) glue piece i to separator i + 1 and keep
the stripped result when it is non-empty. -/
def pairUp : List (List Char) → List (List Char)
  | a :: b :: rest =>
    let s := strip (a ++ b)
    if s = [] then pairUp rest else s :: pairUp rest
  | _ => []

/-- split_into_sentences from src/backend/utils/chunking.py: split on the
sentence-ending regex, recombine pieces with their punctuation, append the
trailing piece when the regex does not match inside it and it strips to
something non-empty, and fall back to the whole text when nothing was
collected. -/
def splitIntoSentences (text : List Char) : List (List Char) :=
  let sentences := splitSent text
  let paired := pairUp sentences
  let result :=
    match sentences.getLast? with
    | none => paired
    | some last =>
      if findM last = none && !(strip last = []) then paired ++ [strip last]
      else paired
  if result = [] then [text] else result

/-- Length of the longest sentence that split_into_sentences produces for
the given text. -/
def maxSentLen (text : List Char) : Nat :=
  (splitIntoSentences text).foldr (fun s m => max s.length m) 0

/-- The overlap-seeding loop of chunk_text: walk the just-emitted sentence
list in reverse, keeping sentences while the kept size stays at most
overlap; acc and sz accumulate the kept suffix in original order and its
size. -/
def takeOverlapGo : List (List Char) → Int → List (List Char) → Nat →
    List (List Char) × Nat
  | [], _, acc, sz => (acc, sz)
  | s :: rest, ov, acc, sz =>
    if (sz + s.length : Int) ≤ ov then takeOverlapGo rest ov (s :: acc) (sz + s.length)
    else (acc, sz)

/-- The sentence-accumulation loop of chunk_text: cur is the working
sentence list and size the running character count the source maintains.
When adding a sentence would push size past chunk_size and cur is
non-empty, the joined and stripped chunk is yielded if non-empty, cur is
reseeded from its own tail under the overlap budget (or emptied when even
the joined text fits in overlap), and the sentence is then appended. -/
def sentLoop : List (List Char) → Int → Int → List (List Char) → Nat →
    List (List Char)
  | [], _, _, cur, _ =>
    if cur = [] then []
    else
      let c := strip (joinSp cur)
      if c = [] then [] else [c]
  | s :: rest, cs, ov, cur, size =>
    if (size + s.length : Int) > cs && !(cur = []) then
      let c := strip (joinSp cur)
      let emitted := if c = [] then [] else [c]
      let seed :=
        if ((joinSp cur).length : Int) > ov then takeOverlapGo cur.reverse ov [] 0
        else ([], 0)
      emitted ++ sentLoop rest cs ov (seed.1 ++ [s]) (seed.2 + s.length)
    else sentLoop rest cs ov (cur ++ [s]) (size + s.length)

/-- The sentence-aware mode of chunk_text. -/
def sentChunks (text : List Char) (cs ov : Int) : List (List Char) :=
  sentLoop (splitIntoSentences text) cs ov [] 0

/-- The character-fallback loop of chunk_text, with fuel.  The Bool is
true when the loop exited through one of its own stopping conditions and
false when the fuel ran out first.  start is the window start; the end of
the window is min(n, start + chunk_size); the next start is
end - overlap clamped at zero, and the loop stops when it reaches n. -/
def charLoop : Nat → List Char → Int → Int → Nat → List (List Char) × Bool
  | 0, _, _, _, _ => ([], false)
  | fuel + 1, text, cs, ov, start =>
    if start ≥ text.length then ([], true)
    else
      let e := min (text.length : Int) ((start : Int) + cs)
      let chunk := strip ((text.drop start).take (e.toNat - start))
      let out := if chunk = [] then [] else [chunk]
      let s' := (e - ov).toNat
      if s' ≥ text.length then (out, true)
      else
        let r := charLoop fuel text cs ov s'
        (out ++ r.1, r.2)

/-- chunk_text from src/backend/utils/chunking.py.  chunk_size at most
zero yields the whole text; otherwise overlap is clamped to
chunk_size / 3 when it is not below chunk_size; sentence-aware mode is
used when requested and the text is shorter than 100 windows, and the
character fallback otherwise.  The fuel and the Bool flag belong to the
fallback loop only; the other paths always terminate and report true. -/
def chunk_text (fuel : Nat) (text : List Char) (chunk_size overlap : Int)
    (sentence_aware : Bool) : List (List Char) × Bool :=
  if chunk_size ≤ 0 then ([text], true)
  else
    let ov := if overlap ≥ chunk_size then max 0 (chunk_size / 3) else overlap
    if sentence_aware && ((text.length : Int) < chunk_size * 100) then
      (sentChunks text chunk_size ov, true)
    else charLoop fuel text chunk_size ov 0

/-- validate_chunk from src/backend/utils/chunking.py: reject empty and
whitespace-only chunks, chunks whose stripped length is below min_length,
and chunks with fewer than min_length / 2 alphanumeric characters. -/
def validate_chunk (chunk : List Char) (min_length : Nat) : Bool :=
  if chunk = [] || strip chunk = [] then false
  else if (strip chunk).length < min_length then false
  else if chunk.countP isAlnumA < min_length / 2 then false
  else true

/-! ## Data model (src/backend/storage/in_memory_store.py) -/

/-- The DocChunk dataclass. -/
structure DocChunk where
  doc_id : String
  doc_name : String
  chunk_id : Nat
  text : List Char
deriving DecidableEq, Repr

/-! ## Retriever (src/backend/services/retrieval_service.py) -/

/-- The query preprocessing of retrieve_top_k: lowercase, split on
whitespace, keep tokens longer than two characters.  The result is a list,
so a token the query repeats appears repeatedly. -/
def queryTokens (q : List Char) : List (List Char) :=
  (pySplit (lowerS q)).filter (fun w => 2 < w.length)

/-- score_chunk_optimized: one point per entry of the token list that
occurs as a substring of the lowercased chunk text.  The source uses a
float accumulator stepping by 1.0; it is modelled by a natural count. -/
def score_chunk_optimized (query_tokens : List (List Char)) (text_lower : List Char) : Nat :=
  query_tokens.foldl (fun acc w => if isSub w text_lower then acc + 1 else acc) 0

/-- The scored list retrieve_top_k builds before sorting: chunks in their
original order, each paired with its score, keeping scores above zero. -/
def scoredList (q : List Char) (chunks : List DocChunk) : List (DocChunk × Nat) :=
  chunks.filterMap (fun ch =>
    let s := score_chunk_optimized (queryTokens q) (lowerS ch.text)
    if 0 < s then some (ch, s) else none)

/-- Insertion step of the stable descending sort: the inserted element
goes in front of the first element whose score it reaches, hence in front
of equal scores, which is the stability of the Python list.sort with
reverse set (an element listed earlier stays earlier among equals; the
theorem for claim C3 proves both the ordering and the stability). -/
def insertDesc (x : DocChunk × Nat) : List (DocChunk × Nat) → List (DocChunk × Nat)
  | [] => [x]
  | y :: ys => if y.2 ≤ x.2 then x :: y :: ys else y :: insertDesc x ys

/-- Stable descending sort by score, modelling scored.sort(key score,
reverse true) of the source. -/
def sortDesc : List (DocChunk × Nat) → List (DocChunk × Nat)
  | [] => []
  | x :: xs => insertDesc x (sortDesc xs)

/-- retrieve_top_k from src/backend/services/retrieval_service.py.  The
slice scored[:top_k] is modelled with List.take over a natural top_k. -/
def retrieve_top_k (q : List Char) (chunks : List DocChunk) (top_k : Nat) :
    List (DocChunk × Nat) :=
  if queryTokens q = [] then []
  else (sortDesc (scoredList q chunks)).take top_k

/-! ## PDF loader (src/backend/loaders/pdf_loader.py) -/

/-- Outcome of extracting one page: ok with the page text, or error when
the page access or extraction raised.  The pypdf reader is external, so
the page outcomes are the input of the model. -/
abbrev PageResult := Except Unit (List Char)

/-- The errors read_pdf_bytes can raise after reading the pages: no page
produced text at all, or the cleaned text was too short. -/
inductive PdfErr where
  | noText
  | noMeaningfulText
deriving DecidableEq, Repr

deriving instance DecidableEq for Except

/-- The page loop of read_pdf_bytes, from page index i: collect the texts
of pages that yield non-whitespace text, and the one-based indices of the
failed pages (a raising page, or a page whose text is empty or
whitespace-only). -/
def pdfLoop : Nat → List PageResult → List (List Char) × List Nat
  | _, [] => ([], [])
  | i, r :: rest =>
    let acc := pdfLoop (i + 1) rest
    match r with
    | .error _ => (acc.1, (i + 1) :: acc.2)
    | .ok t =>
      if !(t = []) && !(strip t = []) then (t :: acc.1, acc.2)
      else (acc.1, (i + 1) :: acc.2)

/-- The texts of the successful pages, in page order. -/
def successParts (pages : List PageResult) : List (List Char) :=
  pages.filterMap (fun r =>
    match r with
    | .error _ => none
    | .ok t => if !(t = []) && !(strip t = []) then some t else none)

/-- The tail of read_pdf_bytes, from the page loop on: fail with noText
when no page text was collected; otherwise join the parts with a blank
line, clean the result, fail with noMeaningfulText when the cleaned text
is empty or its stripped length is below ten, and return the cleaned text
otherwise. -/
def readPdfPages (pages : List PageResult) : Except PdfErr (List Char) :=
  let parts := (pdfLoop 0 pages).1
  if parts = [] then .error .noText
  else
    let cleaned := clean_text (joinBlank parts)
    if cleaned = [] || (strip cleaned).length < 10 then .error .noMeaningfulText
    else .ok cleaned

/-- A concrete ten-page document used to instantiate the page-failure
claims: pages three and seven raise during extraction, the other eight
extract one short sentence each. -/
def samplePages : List PageResult :=
  [.ok (("Page one has text.").toList),
   .ok (("Page two has text.").toList),
   .error (),
   .ok (("Page four has text.").toList),
   .ok (("Page five has text.").toList),
   .ok (("Page six has text.").toList),
   .error (),
   .ok (("Page eight has text.").toList),
   .ok (("Page nine has text.").toList),
   .ok (("Page ten has text.").toList)]

/-! ## Chunk store (src/backend/storage/in_memory_store.py) -/

/-- Assignment d[k] = v on an insertion-ordered mapping: replace in place
when the key is present, append otherwise. -/
def dictSet {V : Type} (k : String) (v : V) (d : List (String × V)) : List (String × V) :=
  if (d.map Prod.fst).contains k then
    d.map (fun p => if p.1 = k then (k, v) else p)
  else d ++ [(k, v)]

/-- d.pop(k, None): drop the entry for k when present, keep the rest in
order. -/
def dictPop {V : Type} (k : String) (d : List (String × V)) : List (String × V) :=
  d.filter (fun p => !(p.1 = k))

/-- d.get(k, default). -/
def dictGet {V : Type} (k : String) (d : List (String × V)) (default : V) : V :=
  match d.find? (fun p => p.1 = k) with
  | some p => p.2
  | none => default

/-- The InMemoryStore state: the doc-name map and the chunk map, both
keyed by doc_id, modelled as insertion-ordered association lists as Python
dicts are. -/
structure Store where
  docs : List (String × String)
  chunks : List (String × List DocChunk)
deriving Repr

/-- The store the constructor builds. -/
def emptyStore : Store :=
  { docs := [], chunks := [] }

/-- upsert_doc: add or update a document with its chunks. -/
def upsert_doc (s : Store) (doc_id doc_name : String) (cs : List DocChunk) : Store :=
  { docs := dictSet doc_id doc_name s.docs, chunks := dictSet doc_id cs s.chunks }

/-- remove_doc: drop a document and its chunks, a no-op when absent. -/
def remove_doc (s : Store) (doc_id : String) : Store :=
  { docs := dictPop doc_id s.docs, chunks := dictPop doc_id s.chunks }

/-- list_docs: the documents as pairs, insertion order. -/
def list_docs (s : Store) : List (String × String) :=
  s.docs

/-- get_chunks: the chunks of one document, empty when unknown. -/
def get_chunks (s : Store) (doc_id : String) : List DocChunk :=
  dictGet doc_id s.chunks []

/-- get_total_chunks: chunks across all documents. -/
def get_total_chunks (s : Store) : Nat :=
  (s.chunks.map (fun p => p.2.length)).sum

/-- get_memory_usage_mb estimates memory from the stored texts with
sys.getsizeof; the external size of a string object is abstracted to the
character count of the text.  The claims only use that this method reads
the store without changing it. -/
def get_memory_usage (s : Store) : Nat :=
  (s.chunks.map (fun p => sumLen (p.2.map DocChunk.text))).sum

/-- get_statistics: document count, chunk count, memory estimate, and the
per-document chunk counts. -/
def get_statistics (s : Store) : Nat × Nat × Nat × List (String × String × Nat) :=
  (s.docs.length, get_total_chunks s, get_memory_usage s,
    s.docs.map (fun p => (p.1, p.2, (dictGet p.1 s.chunks []).length)))

/-- The operations a caller can run against a store.  The last five only
read the state. -/
inductive StoreOp where
  | upsert (doc_id doc_name : String) (cs : List DocChunk)
  | remove (doc_id : String)
  | getChunks (doc_id : String)
  | listDocs
  | totalChunks
  | memUsage
  | statistics

/-- State after one operation.  The read operations compute their result
from the state without modifying it, exactly as the Python methods only
read self. -/
def applyOp (s : Store) : StoreOp → Store
  | .upsert doc_id doc_name cs => upsert_doc s doc_id doc_name cs
  | .remove doc_id => remove_doc s doc_id
  | .getChunks doc_id => (get_chunks s doc_id, s).2
  | .listDocs => (list_docs s, s).2
  | .totalChunks => (get_total_chunks s, s).2
  | .memUsage => (get_memory_usage s, s).2
  | .statistics => (get_statistics s, s).2

/-- State after a sequence of operations. -/
def applyOps (s : Store) (ops : List StoreOp) : Store :=
  ops.foldl applyOp s

/-- The store invariant of claim C10: the doc-name map and the chunk map
hold exactly the same document ids (even in the same order). -/
def storeInv (s : Store) : Prop :=
  s.docs.map Prod.fst = s.chunks.map Prod.fst

/-! ## Shape predicates used to reason about the text normalizer -/

/-- No two adjacent characters are both in the space-tab class: the shape
the substitution of horizontal whitespace runs leaves behind. -/
def noSS : List Char → Bool
  | a :: b :: t => !(spTab a && spTab b) && noSS (b :: t)
  | _ => true

/-- No tab character occurs. -/
def noTab (l : List Char) : Bool :=
  l.all (fun c => !(c = '\t'))

/-- No three consecutive newlines occur: the shape the newline-run
substitution leaves behind. -/
def r3 : List Char → Bool
  | a :: b :: c :: t => !(a = '\n' && b = '\n' && c = '\n') && r3 (b :: c :: t)
  | _ => true

/-! ## Basic lemmas about the string helpers -/

theorem rstrip_length_le (l : List Char) : (rstrip l).length ≤ l.length := by
  induction l with
  | nil => simp [rstrip]
  | cons c cs ih =>
    simp only [rstrip]
    split
    · simp
    · simpa using ih

theorem strip_length_le (l : List Char) : (strip l).length ≤ l.length :=
  le_trans (rstrip_length_le _) (List.dropWhile_sublist pyWS).length_le

theorem lstrip_head_not_ws (l : List Char) (c : Char) (t : List Char)
    (h : lstrip l = c :: t) : pyWS c = false := by
  induction l with
  | nil => simp [lstrip] at h
  | cons a as ih =>
    by_cases ha : pyWS a
    · exact ih (by simpa [lstrip, ha] using h)
    · simp only [lstrip, List.dropWhile_cons] at h
      rw [if_neg (by simpa using ha)] at h
      cases h
      simpa using ha

theorem rstrip_head_eq (l : List Char) (c : Char) (t : List Char)
    (h : rstrip l = c :: t) : ∃ t0, l = c :: t0 := by
  cases l with
  | nil => simp [rstrip] at h
  | cons a as =>
    simp only [rstrip] at h
    split at h
    · cases h
    · cases h
      exact ⟨as, rfl⟩

theorem strip_head_not_ws (l : List Char) (c : Char) (t : List Char)
    (h : strip l = c :: t) : pyWS c = false := by
  obtain ⟨t0, h0⟩ := rstrip_head_eq _ _ _ h
  exact lstrip_head_not_ws l c t0 h0

theorem strip_not_all_ws (l : List Char) (h : strip l ≠ []) :
    (strip l).all pyWS = false := by
  cases hs : strip l with
  | nil => exact absurd hs h
  | cons c t =>
    have := strip_head_not_ws l c t hs
    simp [List.all_cons, this]

theorem length_le_sumLen (l : List (List Char)) (h : ∀ x ∈ l, x ≠ []) :
    l.length ≤ sumLen l := by
  induction l with
  | nil => simp [sumLen]
  | cons a t ih =>
    have ha : a ≠ [] := h a (by simp)
    have h1 : 1 ≤ a.length := by
      cases a with
      | nil => exact absurd rfl ha
      | cons _ _ => simp
    have := ih (fun x hx => h x (by simp [hx]))
    simp only [sumLen, List.map_cons, List.sum_cons, List.length_cons] at *
    omega

theorem joinSp_nil : joinSp [] = [] := rfl

theorem joinSp_single (a : List Char) : joinSp [a] = a := by
  simp [joinSp, List.intercalate]

theorem joinSp_cons₂ (a b : List Char) (t : List (List Char)) :
    joinSp (a :: b :: t) = a ++ ' ' :: joinSp (b :: t) := by
  simp [joinSp, List.intercalate, List.intersperse]

theorem joinSp_length_le (l : List (List Char)) :
    (joinSp l).length ≤ sumLen l + l.length := by
  induction l with
  | nil => simp [joinSp_nil, sumLen]
  | cons a t ih =>
    cases t with
    | nil => simp [joinSp_single, sumLen]
    | cons b u =>
      rw [joinSp_cons₂]
      simp only [sumLen, List.map_cons, List.sum_cons, List.length_append,
        List.length_cons] at *
      omega

/-! ## Claim C10: the store keeps its two maps on the same ids -/

theorem dictSet_keys {V : Type} (k : String) (v : V) (d : List (String × V)) :
    (dictSet k v d).map Prod.fst =
      if (d.map Prod.fst).contains k then d.map Prod.fst else d.map Prod.fst ++ [k] := by
  unfold dictSet
  split
  · rw [List.map_map]
    apply List.map_congr_left
    intro p _
    by_cases h : p.1 = k
    · simp [h]
    · simp [h]
  · simp

theorem dictPop_keys {V : Type} (k : String) (d : List (String × V)) :
    (dictPop k d).map Prod.fst = (d.map Prod.fst).filter (fun x => !(x = k)) := by
  induction d with
  | nil => rfl
  | cons p t ih =>
    by_cases h : p.1 = k <;>
      simp [dictPop, List.filter_cons, h] at * <;>
      simpa using ih

theorem applyOp_inv (s : Store) (op : StoreOp) (h : storeInv s) : storeInv (applyOp s op) := by
  cases op with
  | upsert doc_id doc_name cs =>
    show storeInv (upsert_doc s doc_id doc_name cs)
    unfold storeInv upsert_doc at *
    simp only [dictSet_keys, h]
  | remove doc_id =>
    show storeInv (remove_doc s doc_id)
    unfold storeInv remove_doc at *
    simp only [dictPop_keys, h]
  | getChunks doc_id => exact h
  | listDocs => exact h
  | totalChunks => exact h
  | memUsage => exact h
  | statistics => exact h

theorem applyOps_inv (ops : List StoreOp) : ∀ s, storeInv s → storeInv (applyOps s ops) := by
  induction ops with
  | nil => intro s h; exact h
  | cons op t ih => intro s h; exact ih _ (applyOp_inv s op h)

/-- C10: starting from the empty store, every sequence of upsert_doc,
remove_doc, get_chunks, list_docs, get_total_chunks, get_memory_usage and
get_statistics operations preserves the invariant that the doc-name map
and the chunk map hold exactly the same set of document ids, so no chunk
sequence is orphaned and every listed document has one. -/
theorem store_maps_share_ids (ops : List StoreOp) : storeInv (applyOps emptyStore ops) :=
  applyOps_inv ops emptyStore rfl

/-! ## Claim C8: validate_chunk -/

/-- C8 counterexample: a string of length ten with five alphanumeric
characters and five trailing spaces meets every condition of the claim
for returning true (non-empty, not whitespace-only, not shorter than
min_length, alphanumeric count not below min_length / 2), yet
validate_chunk returns false, because the source compares min_length
against the length of the stripped string. -/
theorem validate_chunk_claim_false :
    validate_chunk (("abcde     ").toList) 10 = false
    ∧ ("abcde     ").toList ≠ []
    ∧ strip (("abcde     ").toList) ≠ []
    ∧ ¬(("abcde     ").toList.length < 10)
    ∧ ¬(("abcde     ").toList.countP isAlnumA < 10 / 2) := by
  refine ⟨by decide, by decide, by decide, by decide, by decide⟩

/-- C8 (amended): validate_chunk returns true exactly when the chunk
strips to a non-empty string whose stripped length reaches min_length and
whose alphanumeric character count reaches min_length / 2; in particular
every string of raw length below min_length is still rejected, as the
claim listed. -/
theorem validate_chunk_characterization (chunk : List Char) (min_length : Nat) :
    (validate_chunk chunk min_length = true ↔
      (strip chunk ≠ [] ∧ min_length ≤ (strip chunk).length ∧
        min_length / 2 ≤ chunk.countP isAlnumA))
    ∧ (chunk.length < min_length → validate_chunk chunk min_length = false) := by
  constructor
  · unfold validate_chunk
    split_ifs with h1 h2 h3
    · simp only [Bool.false_eq_true, false_iff]
      rintro ⟨hne, -, -⟩
      rcases (by simpa using h1 : chunk = [] ∨ strip chunk = []) with h | h
      · exact hne (by rw [h]; rfl)
      · exact hne h
    · simp only [Bool.false_eq_true, false_iff]
      rintro ⟨-, hlen, -⟩
      omega
    · simp only [Bool.false_eq_true, false_iff]
      rintro ⟨-, -, hal⟩
      omega
    · simp only [true_iff]
      have h1' : ¬(chunk = [] ∨ strip chunk = []) := by simpa using h1
      exact ⟨fun h => h1' (Or.inr h), by omega, by omega⟩
  · intro h
    have hs := strip_length_le chunk
    unfold validate_chunk
    split_ifs with h1 h2 h3
    · rfl
    · rfl
    · rfl
    · omega

/-! ## Claim C4: the retriever score -/

theorem score_foldl (ts : List (List Char)) (t : List Char) :
    score_chunk_optimized ts t = ts.countP (fun w => isSub w t) := by
  unfold score_chunk_optimized
  suffices h : ∀ n, ts.foldl (fun acc w => if isSub w t then acc + 1 else acc) n
      = n + ts.countP (fun w => isSub w t) by
    simpa using h 0
  induction ts with
  | nil => intro n; simp
  | cons w ws ih =>
    intro n
    by_cases hw : isSub w t
    · simp [List.countP_cons, hw, ih]
      omega
    · simp [List.countP_cons, hw, ih]

/-- C4 counterexample: on the query of the word cat written twice and a
chunk whose text is cat, the score the retriever assigns is two, while
the number of distinct query tokens occurring as substrings is one, so a
token present twice in the query contributes twice, not at most once. -/
theorem score_double_counts_repeated_token :
    score_chunk_optimized (queryTokens (("cat cat").toList)) (lowerS (("cat").toList)) = 2
    ∧ ((queryTokens (("cat cat").toList)).dedup.countP
        (fun w => isSub w (lowerS (("cat").toList)))) = 1
    ∧ (2 : Nat) ≠ 1 := by
  refine ⟨by decide, by decide, by decide⟩

/-- C4 (amended): the score the retriever assigns a chunk equals the
number of entries of the token list (whitespace-split, lowercased,
length above two, kept with multiplicity) that occur as substrings of the
lowercased chunk text; a token the query repeats contributes once per
repetition, as the second conjunct shows. -/
theorem score_counts_tokens_with_multiplicity (q t : List Char) :
    score_chunk_optimized (queryTokens q) (lowerS t)
      = (queryTokens q).countP (fun w => isSub w (lowerS t))
    ∧ ∀ w ∈ queryTokens q, isSub w (lowerS t) = true →
        (queryTokens q).countP (fun x => x = w)
          ≤ score_chunk_optimized (queryTokens q) (lowerS t) := by
  refine ⟨score_foldl _ _, ?_⟩
  intro w _ hsub
  rw [score_foldl]
  apply List.countP_mono_left
  intro x _ hxw
  have : x = w := by simpa using hxw
  rw [this]
  exact hsub

/-! ## Claim C1: the character-fallback loop does not terminate -/

theorem charLoop_stuck_aux : ∀ fuel start,
    (start = 0 ∨ start = 3 ∨ start = 6 ∨ start = 8) →
    (charLoop fuel (List.replicate 10 'a') 5 2 start).2 = false := by
  intro fuel
  induction fuel with
  | zero => intro start _; rfl
  | succ n ih =>
    intro start h
    rcases h with rfl | rfl | rfl | rfl
    · simp only [charLoop, List.length_replicate]
      norm_num
      exact ih 3 (by norm_num)
    · simp only [charLoop, List.length_replicate]
      norm_num
      exact ih 6 (by norm_num)
    · simp only [charLoop, List.length_replicate]
      norm_num
      exact ih 8 (by norm_num)
    · simp only [charLoop, List.length_replicate]
      norm_num
      exact ih 8 (by norm_num)

/-- C1: refuted termination at a concrete input.  On a ten-character text
with chunk_size five and overlap two (parameters inside the claimed
domain), the character-fallback loop of chunk_text reaches window start
eight and then recomputes start as eight forever: whatever fuel the model
is given, the loop never reaches one of its stopping conditions, so the
generator is infinite.  The guard the claim invokes (negative or zero
advance treated as an advance of one) does not exist in the source. -/
theorem chunk_text_fallback_no_termination :
    ∀ fuel, (chunk_text fuel (List.replicate 10 'a') 5 2 false).2 = false := by
  intro fuel
  have h : chunk_text fuel (List.replicate 10 'a') 5 2 false
      = charLoop fuel (List.replicate 10 'a') 5 2 0 := by
    unfold chunk_text
    norm_num
  rw [h]
  exact charLoop_stuck_aux fuel 0 (by norm_num)

/-! ## Claim C3: retrieve_top_k -/

theorem insertDesc_length (x : DocChunk × Nat) (l : List (DocChunk × Nat)) :
    (insertDesc x l).length = l.length + 1 := by
  induction l with
  | nil => rfl
  | cons y ys ih =>
    simp only [insertDesc]
    split
    · simp
    · simp [ih]

theorem sortDesc_length (l : List (DocChunk × Nat)) : (sortDesc l).length = l.length := by
  induction l with
  | nil => rfl
  | cons x xs ih => simp [sortDesc, insertDesc_length, ih]

theorem scoredList_length (q : List Char) (chunks : List DocChunk) :
    (scoredList q chunks).length
      = chunks.countP (fun ch => decide (0 < score_chunk_optimized (queryTokens q) (lowerS ch.text))) := by
  induction chunks with
  | nil => rfl
  | cons ch t ih =>
    simp only [scoredList, List.filterMap_cons, List.countP_cons] at *
    by_cases h : 0 < score_chunk_optimized (queryTokens q) (lowerS ch.text)
    · simp [h, ih]
    · simp [h, ih]

theorem mem_insertDesc (z x : DocChunk × Nat) (l : List (DocChunk × Nat)) :
    z ∈ insertDesc x l ↔ z = x ∨ z ∈ l := by
  induction l with
  | nil => simp [insertDesc]
  | cons y ys ih =>
    simp only [insertDesc]
    split
    · simp
    · simp [ih]
      tauto

theorem insertDesc_pairwise (x : DocChunk × Nat) (l : List (DocChunk × Nat))
    (h : l.Pairwise (fun a b => b.2 ≤ a.2)) :
    (insertDesc x l).Pairwise (fun a b => b.2 ≤ a.2) := by
  induction l with
  | nil => simp [insertDesc]
  | cons y ys ih =>
    rw [List.pairwise_cons] at h
    simp only [insertDesc]
    split
    · rename_i hc
      rw [List.pairwise_cons]
      refine ⟨?_, List.pairwise_cons.mpr h⟩
      intro z hz
      rcases List.mem_cons.mp hz with rfl | hz
      · exact hc
      · exact le_trans (h.1 z hz) hc
    · rename_i hc
      rw [List.pairwise_cons]
      refine ⟨?_, ih h.2⟩
      intro z hz
      rcases (mem_insertDesc z x ys).mp hz with rfl | hz
      · omega
      · exact h.1 z hz

theorem sortDesc_pairwise (l : List (DocChunk × Nat)) :
    (sortDesc l).Pairwise (fun a b => b.2 ≤ a.2) := by
  induction l with
  | nil => simp [sortDesc]
  | cons x xs ih => exact insertDesc_pairwise x (sortDesc xs) ih

theorem insertDesc_filter (x : DocChunk × Nat) (l : List (DocChunk × Nat)) (s : Nat) :
    (insertDesc x l).filter (fun p => decide (p.2 = s))
      = if x.2 = s then x :: l.filter (fun p => decide (p.2 = s))
        else l.filter (fun p => decide (p.2 = s)) := by
  induction l with
  | nil =>
    by_cases hx : x.2 = s <;> simp [insertDesc, hx]
  | cons y ys ih =>
    simp only [insertDesc]
    split
    · by_cases hx : x.2 = s <;> simp [List.filter_cons, hx]
    · rename_i hc
      by_cases hx : x.2 = s
      · have hy : ¬(y.2 = s) := by omega
        simp [List.filter_cons, hx, hy, ih]
      · simp only [List.filter_cons, ih, if_neg hx]

theorem sortDesc_filter (l : List (DocChunk × Nat)) (s : Nat) :
    (sortDesc l).filter (fun p => decide (p.2 = s)) = l.filter (fun p => decide (p.2 = s)) := by
  induction l with
  | nil => rfl
  | cons x xs ih =>
    simp only [sortDesc, insertDesc_filter, List.filter_cons, ih]
    split <;> simp_all

/-- C3: for every query, chunk list and k, retrieve_top_k returns exactly
min k (number of chunks of positive score) pairs, in weakly descending
score order, and for every score value the pairs carrying that score form
a prefix of the positively-scored chunks in their original order (the
stability of the tie-break); the result is empty for an empty chunk list
and for a query without tokens longer than two characters, and the
function is total, so it never raises. -/
theorem retrieve_top_k_spec (q : List Char) (chunks : List DocChunk) (k : Nat) :
    (retrieve_top_k q chunks k).length
      = min k (chunks.countP (fun ch => decide (0 < score_chunk_optimized (queryTokens q) (lowerS ch.text))))
    ∧ (retrieve_top_k q chunks k).Pairwise (fun a b => b.2 ≤ a.2)
    ∧ (∀ s : Nat, (retrieve_top_k q chunks k).filter (fun p => decide (p.2 = s))
        <+: (scoredList q chunks).filter (fun p => decide (p.2 = s)))
    ∧ (chunks = [] → retrieve_top_k q chunks k = [])
    ∧ (queryTokens q = [] → retrieve_top_k q chunks k = []) := by
  unfold retrieve_top_k
  by_cases hq : queryTokens q = []
  · rw [if_pos hq]
    have hsc : ∀ ch : DocChunk, score_chunk_optimized (queryTokens q) (lowerS ch.text) = 0 := by
      intro ch
      rw [hq]
      rfl
    refine ⟨?_, by simp, ?_, fun _ => rfl, fun _ => rfl⟩
    · have : chunks.countP (fun ch => decide (0 < score_chunk_optimized (queryTokens q) (lowerS ch.text))) = 0 := by
        rw [List.countP_eq_zero]
        intro ch _
        simp [hsc ch]
      simp [this]
    · intro s
      simp
  · rw [if_neg hq]
    refine ⟨?_, ?_, ?_, ?_, fun h => absurd h hq⟩
    · rw [List.length_take, sortDesc_length, scoredList_length]
    · exact (sortDesc_pairwise _).sublist (List.take_sublist k _)
    · intro s
      rw [← sortDesc_filter (scoredList q chunks) s]
      exact ( List.take_prefix k _).filter _
    · intro h
      subst h
      show List.take k (sortDesc []) = []
      simp [sortDesc]

/-! ## Claim C9: no empty or whitespace-only chunks -/

theorem sentLoop_all_not_ws : ∀ (ss : List (List Char)) (cs ov : Int)
    (cur : List (List Char)) (size : Nat) (c : List Char),
    c ∈ sentLoop ss cs ov cur size → c.all pyWS = false := by
  intro ss
  induction ss with
  | nil =>
    intro cs ov cur size c hc
    simp only [sentLoop] at hc
    split at hc
    · simp at hc
    · split at hc
      · simp at hc
      · rename_i hne
        rw [List.mem_singleton.mp hc]
        exact strip_not_all_ws _ hne
  | cons s rest ih =>
    intro cs ov cur size c hc
    simp only [sentLoop] at hc
    split at hc
    · rw [List.mem_append] at hc
      rcases hc with hc | hc
      · split at hc
        · simp at hc
        · rename_i hne
          rw [List.mem_singleton.mp hc]
          exact strip_not_all_ws _ hne
      · exact ih _ _ _ _ _ hc
    · exact ih _ _ _ _ _ hc

theorem charLoop_all_not_ws : ∀ (fuel : Nat) (text : List Char) (cs ov : Int)
    (start : Nat) (c : List Char),
    c ∈ (charLoop fuel text cs ov start).1 → c.all pyWS = false := by
  intro fuel
  induction fuel with
  | zero => intro text cs ov start c hc; exact absurd hc (List.not_mem_nil c)
  | succ n ih =>
    intro text cs ov start c hc
    simp only [charLoop] at hc
    split at hc
    · simp at hc
    · split at hc
      · split at hc
        · simp at hc
        · rename_i hne
          rw [List.mem_singleton.mp hc]
          exact strip_not_all_ws _ hne
      · simp only [List.mem_append] at hc
        rcases hc with hc | hc
        · split at hc
          · simp at hc
          · rename_i hne
            rw [List.mem_singleton.mp hc]
            exact strip_not_all_ws _ hne
        · exact ih _ _ _ _ _ hc

/-- C9 counterexample: with chunk_size zero (the degenerate case the claim
itself includes) and the empty text, chunk_text yields the whole text as
one chunk, which is an empty chunk, so the no-empty-chunk guarantee fails
exactly where the escape hatch bypasses the guards. -/
theorem chunk_text_blank_chunk_on_nonpositive_size :
    (chunk_text 0 [] 0 0 true).1 = [[]]
    ∧ ([] : List Char) ∈ (chunk_text 0 [] 0 0 true).1
    ∧ ([] : List Char).all pyWS = true := by
  refine ⟨rfl, by decide, rfl⟩

/-- C9 (amended): whenever chunk_size is positive, every chunk that
chunk_text yields, in either mode, for every text, overlap and
sentence_aware flag, contains a non-whitespace character (in particular
it is non-empty); when chunk_size is at most zero the whole text is
yielded as one chunk, blank or not, as the counterexample shows. -/
theorem chunk_text_no_blank_chunks (fuel : Nat) (text : List Char) (cs ov : Int)
    (sa : Bool) (h : 0 < cs) :
    ∀ c ∈ (chunk_text fuel text cs ov sa).1, c.all pyWS = false := by
  intro c hc
  unfold chunk_text at hc
  rw [if_neg (by omega)] at hc
  split at hc <;> split at hc <;>
    first
      | exact sentLoop_all_not_ws _ _ _ _ _ _ hc
      | exact charLoop_all_not_ws _ _ _ _ _ _ hc

theorem chunk_text_no_blank_chunks_witness :
    (0 : Int) < 1 ∧ ∀ c ∈ (chunk_text 1 (("a").toList) 1 0 false).1, c.all pyWS = false :=
  ⟨by norm_num, chunk_text_no_blank_chunks 1 (("a").toList) 1 0 false (by norm_num)⟩

/-! ## Claim C2: chunk length bounds -/

theorem sumLen_nil : sumLen [] = 0 := rfl

theorem sumLen_cons (a : List Char) (t : List (List Char)) :
    sumLen (a :: t) = a.length + sumLen t := by
  simp [sumLen]

theorem sumLen_append (l1 l2 : List (List Char)) :
    sumLen (l1 ++ l2) = sumLen l1 + sumLen l2 := by
  simp [sumLen]

theorem takeOverlapGo_le (ov : Int) :
    ∀ (rev acc : List (List Char)) (sz : Nat), (sz : Int) ≤ ov →
    ((takeOverlapGo rev ov acc sz).2 : Int) ≤ ov := by
  intro rev
  induction rev with
  | nil => intro acc sz hsz; simpa [takeOverlapGo] using hsz
  | cons s rest ih =>
    intro acc sz hsz
    simp only [takeOverlapGo]
    split
    · rename_i h
      exact ih _ _ (by push_cast; omega)
    · simpa using hsz

theorem takeOverlapGo_sumLen (ov : Int) :
    ∀ (rev acc : List (List Char)) (sz : Nat), sz = sumLen acc →
    (takeOverlapGo rev ov acc sz).2 = sumLen (takeOverlapGo rev ov acc sz).1 := by
  intro rev
  induction rev with
  | nil => intro acc sz h; simpa [takeOverlapGo] using h
  | cons s rest ih =>
    intro acc sz h
    simp only [takeOverlapGo]
    split
    · exact ih _ _ (by rw [sumLen_cons]; omega)
    · exact h

theorem takeOverlapGo_mem (ov : Int) :
    ∀ (rev acc : List (List Char)) (sz : Nat) (x : List Char),
    x ∈ (takeOverlapGo rev ov acc sz).1 → x ∈ rev ∨ x ∈ acc := by
  intro rev
  induction rev with
  | nil => intro acc sz x hx; simp only [takeOverlapGo] at hx; exact Or.inr hx
  | cons s rest ih =>
    intro acc sz x hx
    simp only [takeOverlapGo] at hx
    split at hx
    · rcases ih _ _ _ hx with h | h
      · exact Or.inl (by simp [h])
      · rcases List.mem_cons.mp h with rfl | h'
        · exact Or.inl (by simp)
        · exact Or.inr h'
    · exact Or.inr hx

theorem emitted_chunk_le (cur : List (List Char)) (B : Nat)
    (hne : ∀ x ∈ cur, x ≠ []) (hb : sumLen cur ≤ B) :
    (strip (joinSp cur)).length ≤ 2 * B := by
  calc (strip (joinSp cur)).length ≤ (joinSp cur).length := strip_length_le _
    _ ≤ sumLen cur + cur.length := joinSp_length_le _
    _ ≤ 2 * B := by have := length_le_sumLen cur hne; omega

theorem sentLoop_bound (cs ov : Int) (h1 : 0 < cs) (h2 : 0 ≤ ov) (h3 : ov < cs) (L : Nat) :
    ∀ (ss : List (List Char)), (∀ s ∈ ss, s ≠ [] ∧ s.length ≤ L) →
    ∀ (cur : List (List Char)) (size : Nat),
      size = sumLen cur → (∀ x ∈ cur, x ≠ []) → sumLen cur ≤ cs.toNat + L →
    ∀ c ∈ sentLoop ss cs ov cur size, c.length ≤ 2 * (cs.toNat + L) := by
  intro ss
  induction ss with
  | nil =>
    intro _ cur size _ hne hbound c hc
    simp only [sentLoop] at hc
    split at hc
    · simp at hc
    · split at hc
      · simp at hc
      · rw [List.mem_singleton.mp hc]
        exact emitted_chunk_le cur _ hne hbound
  | cons s rest ih =>
    intro hss cur size hsz hne hbound c hc
    have hs := hss s (by simp)
    have hrest : ∀ x ∈ rest, x ≠ [] ∧ x.length ≤ L := fun x hx => hss x (by simp [hx])
    simp only [sentLoop] at hc
    split at hc
    · rename_i hcond
      rw [List.mem_append] at hc
      rcases hc with hc | hc
      · split at hc
        · simp at hc
        · rw [List.mem_singleton.mp hc]
          exact emitted_chunk_le cur _ hne hbound
      · split at hc
        · -- reseed from the overlap suffix
          have hts : (takeOverlapGo cur.reverse ov [] 0).2
              = sumLen (takeOverlapGo cur.reverse ov [] 0).1 :=
            takeOverlapGo_sumLen ov _ _ 0 sumLen_nil.symm
          have hto : ((takeOverlapGo cur.reverse ov [] 0).2 : Int) ≤ ov :=
            takeOverlapGo_le ov _ _ 0 (by exact_mod_cast h2)
          refine ih hrest _ _ ?_ ?_ ?_ c hc
          · rw [sumLen_append, sumLen_cons, sumLen_nil]
            omega
          · intro x hx
            rcases List.mem_append.mp hx with hx' | hx'
            · rcases takeOverlapGo_mem ov _ _ _ _ hx' with h | h
              · exact hne x (List.mem_reverse.mp h)
              · simp at h
            · rw [List.mem_singleton.mp hx']
              exact hs.1
          · rw [sumLen_append, sumLen_cons, sumLen_nil]
            have hL := hs.2
            omega
        · -- reseed empty
          refine ih hrest _ _ ?_ ?_ ?_ c hc
          · simp [sumLen_cons, sumLen_nil]
          · intro x hx
            simp at hx
            rw [hx]
            exact hs.1
          · have hL := hs.2
            simp [sumLen_cons, sumLen_nil]
            omega
    · rename_i hcond
      refine ih hrest _ _ ?_ ?_ ?_ c hc
      · rw [sumLen_append, sumLen_cons, sumLen_nil, ← hsz]
        omega
      · intro x hx
        rcases List.mem_append.mp hx with hx' | hx'
        · exact hne x hx'
        · rw [List.mem_singleton.mp hx']
          exact hs.1
      · have hnotand : ¬((size + s.length : Int) > cs) ∨ cur = [] := by
          by_contra hcon
          push_neg at hcon
          exact hcond (by simp [hcon.1, hcon.2])
        rcases hnotand with hle | hnil
        · rw [sumLen_append, sumLen_cons, sumLen_nil, ← hsz]
          have hL := hs.2
          push_cast at hle
          omega
        · subst hnil
          rw [List.nil_append, sumLen_cons, sumLen_nil]
          have hL := hs.2
          omega

theorem pairUp_ne_nil : ∀ (l : List (List Char)) (x : List Char), x ∈ pairUp l → x ≠ []
  | [], x, hx => by simp [pairUp] at hx
  | [a], x, hx => by simp [pairUp] at hx
  | a :: b :: rest, x, hx => by
    simp only [pairUp] at hx
    split at hx
    · exact pairUp_ne_nil rest x hx
    · rename_i hne
      rcases List.mem_cons.mp hx with rfl | hx'
      · exact hne
      · exact pairUp_ne_nil rest x hx'

theorem splitIntoSentences_ne_nil (text : List Char) (htext : text ≠ []) :
    ∀ s ∈ splitIntoSentences text, s ≠ [] := by
  intro s hs
  simp only [splitIntoSentences] at hs
  split at hs
  · rw [List.mem_singleton.mp hs]
    exact htext
  · split at hs
    · exact pairUp_ne_nil _ s hs
    · split at hs
      · rename_i hcond
        rcases List.mem_append.mp hs with hs' | hs'
        · exact pairUp_ne_nil _ s hs'
        · rw [List.mem_singleton.mp hs']
          simp only [Bool.and_eq_true] at hcond
          simpa using hcond.2
      · exact pairUp_ne_nil _ s hs

theorem maxSentLen_bound (text : List Char) :
    ∀ s ∈ splitIntoSentences text, s.length ≤ maxSentLen text := by
  unfold maxSentLen
  generalize splitIntoSentences text = l
  induction l with
  | nil => simp
  | cons a t ih =>
    intro s hs
    rcases List.mem_cons.mp hs with rfl | hs'
    · simp only [List.foldr_cons]
      exact le_max_left _ _
    · simp only [List.foldr_cons]
      exact le_trans (ih s hs') (le_max_right _ _)

theorem charLoop_chunk_le (cs ov : Int) (hcs : 0 < cs) :
    ∀ (fuel : Nat) (text : List Char) (start : Nat) (c : List Char),
    c ∈ (charLoop fuel text cs ov start).1 → (c.length : Int) ≤ cs := by
  intro fuel
  induction fuel with
  | zero => intro text start c hc; exact absurd hc (List.not_mem_nil c)
  | succ n ih =>
    intro text start c hc
    have hlen : ∀ c' : List Char,
        c' = strip ((text.drop start).take
          ((min (text.length : Int) ((start : Int) + cs)).toNat - start)) →
        (c'.length : Int) ≤ cs := by
      intro c' hc'
      have hst := strip_length_le ((text.drop start).take
        ((min (text.length : Int) ((start : Int) + cs)).toNat - start))
      have htk : ((text.drop start).take
          ((min (text.length : Int) ((start : Int) + cs)).toNat - start)).length
          ≤ (min (text.length : Int) ((start : Int) + cs)).toNat - start := by
        simp
      rw [hc']
      omega
    simp only [charLoop] at hc
    split at hc
    · exact absurd hc (List.not_mem_nil c)
    · split at hc
      · split at hc
        · exact absurd hc (List.not_mem_nil c)
        · rw [List.mem_singleton.mp hc]
          exact hlen _ rfl
      · rw [List.mem_append] at hc
        rcases hc with hc | hc
        · split at hc
          · exact absurd hc (List.not_mem_nil c)
          · rw [List.mem_singleton.mp hc]
            exact hlen _ rfl
        · exact ih text _ c hc

/-- C2 counterexample: with chunk_size ten and overlap zero (inside the
claimed parameter range), the sentence-aware mode on a text of seven
two-character sentences yields a chunk of fourteen characters, exceeding
chunk_size plus the longest sentence length, which is twelve: the claim
ignores the single spaces the join inserts between accumulated
sentences. -/
theorem sentence_chunk_exceeds_size_plus_longest :
    ("a. a. a. a. a.").toList ∈ (chunk_text 0 (("a. a. a. a. a. a. a.").toList) 10 0 true).1
    ∧ (("a. a. a. a. a.").toList).length = 14
    ∧ maxSentLen (("a. a. a. a. a. a. a.").toList) = 2
    ∧ ¬((("a. a. a. a. a.").toList).length
        ≤ 10 + maxSentLen (("a. a. a. a. a. a. a.").toList)) := by
  refine ⟨by decide, by decide, by decide, by decide⟩

/-- C2 (amended): for chunk_size above zero and overlap at least zero and
below chunk_size, every chunk chunk_text yields with sentence_aware true
has length at most twice the sum of chunk_size and the longest sentence
length (the accumulated sentences stay within chunk_size plus one
overlong sentence, and the joining spaces at most double that), and every
chunk the character-fallback mode yields has length at most chunk_size
exactly. -/
theorem chunk_text_length_bound (fuel : Nat) (text : List Char) (cs ov : Int)
    (h1 : 0 < cs) (h2 : 0 ≤ ov) (h3 : ov < cs) :
    (∀ c ∈ (chunk_text fuel text cs ov true).1,
      (c.length : Int) ≤ 2 * (cs + (maxSentLen text : Int)))
    ∧ (∀ c ∈ (chunk_text fuel text cs ov false).1, (c.length : Int) ≤ cs) := by
  have hcsn : ((cs.toNat : Int)) = cs := Int.toNat_of_nonneg (by omega)
  have hT : chunk_text fuel text cs ov true
      = if (text.length : Int) < cs * 100 then (sentChunks text cs ov, true)
        else charLoop fuel text cs ov 0 := by
    unfold chunk_text
    rw [if_neg (show ¬ cs ≤ 0 by omega), if_neg (show ¬ ov ≥ cs by omega)]
    by_cases hP : (text.length : Int) < cs * 100
    · rw [if_pos (by simp [hP]), if_pos hP]
    · rw [if_neg (by simp [hP]), if_neg hP]
  have hF : chunk_text fuel text cs ov false = charLoop fuel text cs ov 0 := by
    unfold chunk_text
    rw [if_neg (show ¬ cs ≤ 0 by omega), if_neg (show ¬ ov ≥ cs by omega)]
    rw [if_neg (by simp)]
  constructor
  · intro c hc
    rw [hT] at hc
    split at hc
    · by_cases htext : text = []
      · subst htext
        have hempty : sentChunks [] cs ov = [] := by
          have hsis : splitIntoSentences [] = [[]] := by decide
          unfold sentChunks
          rw [hsis]
          simp [sentLoop, joinSp, List.intercalate, strip, lstrip, rstrip]
        rw [hempty] at hc
        exact absurd hc (List.not_mem_nil c)
      · have hb := sentLoop_bound cs ov h1 h2 h3 (maxSentLen text) (splitIntoSentences text)
          (fun s hs => ⟨splitIntoSentences_ne_nil text htext s hs, maxSentLen_bound text s hs⟩)
          [] 0 sumLen_nil.symm (by simp) (by simp [sumLen_nil])
        have := hb c hc
        omega
    · have := charLoop_chunk_le cs ov h1 fuel text 0 c hc
      have hL : (0 : Int) ≤ (maxSentLen text : Int) := by positivity
      omega
  · intro c hc
    rw [hF] at hc
    exact charLoop_chunk_le cs ov h1 fuel text 0 c hc

theorem chunk_text_length_bound_witness :
    (0 : Int) < 10 ∧ (0 : Int) ≤ 3 ∧ (3 : Int) < 10 ∧
    ((∀ c ∈ (chunk_text 5 (("Hi there. Bye now.").toList) 10 3 true).1,
        (c.length : Int) ≤ 2 * (10 + (maxSentLen (("Hi there. Bye now.").toList) : Int)))
      ∧ (∀ c ∈ (chunk_text 5 (("Hi there. Bye now.").toList) 10 3 false).1,
        (c.length : Int) ≤ 10)) :=
  ⟨by norm_num, by norm_num, by norm_num,
    chunk_text_length_bound 5 (("Hi there. Bye now.").toList) 10 3
      (by norm_num) (by norm_num) (by norm_num)⟩

/-! ## Claim C7: the text normalizer is idempotent -/

theorem noSS_tail (a : Char) (l : List Char) (h : noSS (a :: l)) : noSS l := by
  cases l with
  | nil => rfl
  | cons b t =>
    simp only [noSS, Bool.and_eq_true] at h
    exact h.2

theorem r3_tail (a : Char) (l : List Char) (h : r3 (a :: l)) : r3 l := by
  cases l with
  | nil => rfl
  | cons b t =>
    cases t with
    | nil => rfl
    | cons c u =>
      simp only [r3, Bool.and_eq_true] at h
      exact h.2

theorem noSS_cons_of_not (a : Char) (l : List Char) (ha : spTab a = false)
    (h : noSS l) : noSS (a :: l) := by
  cases l with
  | nil => rfl
  | cons b t => simp [noSS, ha, h]

theorem r3_cons_of_not (a : Char) (l : List Char) (ha : ¬(a = '\n'))
    (h : r3 l) : r3 (a :: l) := by
  cases l with
  | nil => rfl
  | cons b t =>
    cases t with
    | nil => rfl
    | cons c u => simp [r3, ha, h]

theorem noSS_cons_head (a : Char) (l : List Char)
    (hhead : ∀ b t, l = b :: t → (spTab a && spTab b) = false)
    (h : noSS l) : noSS (a :: l) := by
  cases l with
  | nil => rfl
  | cons b t => simp [noSS, hhead b t rfl, h]

theorem noSS_dropWhile (p : Char → Bool) (l : List Char) (h : noSS l) :
    noSS (l.dropWhile p) := by
  induction l with
  | nil => rfl
  | cons a t ih =>
    rw [List.dropWhile_cons]
    split
    · exact ih (noSS_tail a t h)
    · exact h

theorem r3_dropWhile (p : Char → Bool) (l : List Char) (h : r3 l) :
    r3 (l.dropWhile p) := by
  induction l with
  | nil => rfl
  | cons a t ih =>
    rw [List.dropWhile_cons]
    split
    · exact ih (r3_tail a t h)
    · exact h

theorem noTab_dropWhile (p : Char → Bool) (l : List Char) (h : noTab l) :
    noTab (l.dropWhile p) := by
  rw [noTab, List.all_eq_true] at *
  intro c hc
  exact h c ((List.dropWhile_sublist p).subset hc)

theorem rstrip_cons₂ (l : List Char) (b d : Char) (t : List Char)
    (h : rstrip l = b :: d :: t) : ∃ t', l = b :: d :: t' := by
  cases l with
  | nil => simp [rstrip] at h
  | cons a as =>
    simp only [rstrip] at h
    split at h
    · cases h
    · rw [List.cons.injEq] at h
      obtain ⟨rfl, h2⟩ := h
      obtain ⟨t0, ht0⟩ := rstrip_head_eq as d t h2
      exact ⟨t0, by rw [ht0]⟩

theorem noSS_rstrip (l : List Char) (h : noSS l) : noSS (rstrip l) := by
  induction l with
  | nil => rfl
  | cons a as ih =>
    simp only [rstrip]
    split
    · rfl
    · apply noSS_cons_head
      · intro b t hbt
        obtain ⟨t0, ht0⟩ := rstrip_head_eq as b t hbt
        rw [ht0] at h
        simp only [noSS, Bool.and_eq_true] at h
        have h1 := h.1
        rwa [Bool.not_eq_true'] at h1
      · exact ih (noSS_tail a as h)

theorem r3_rstrip (l : List Char) (h : r3 l) : r3 (rstrip l) := by
  induction l with
  | nil => rfl
  | cons a as ih =>
    have hr := ih (r3_tail a as h)
    simp only [rstrip]
    split
    · rfl
    · cases hra : rstrip as with
      | nil => rfl
      | cons b u =>
        cases u with
        | nil => rfl
        | cons d t =>
          obtain ⟨t', ht'⟩ := rstrip_cons₂ as b d t hra
          rw [ht'] at h
          simp only [r3, Bool.and_eq_true] at h
          rw [hra] at hr
          simp only [r3, Bool.and_eq_true]
          exact ⟨h.1, hr⟩

theorem noTab_rstrip (l : List Char) (h : noTab l) : noTab (rstrip l) := by
  induction l with
  | nil => rfl
  | cons a as ih =>
    rw [noTab, List.all_cons, Bool.and_eq_true] at h
    simp only [rstrip]
    split
    · rfl
    · rw [noTab, List.all_cons, Bool.and_eq_true]
      exact ⟨h.1, ih h.2⟩

theorem csAux_noTab : ∀ (l : List Char) (b : Bool), noTab (csAux b l) := by
  intro l
  induction l with
  | nil => intro b; rfl
  | cons c cs ih =>
    intro b
    simp only [csAux]
    split
    · rename_i hc
      split
      · exact ih true
      · rw [noTab, List.all_cons, Bool.and_eq_true]
        exact ⟨by decide, ih true⟩
    · rename_i hc
      rw [noTab, List.all_cons, Bool.and_eq_true]
      refine ⟨?_, ih false⟩
      simp only [Bool.not_eq_true', decide_eq_false_iff_not]
      intro hctab
      rw [hctab] at hc
      exact hc (by decide)

theorem csAux_true_head (l : List Char) :
    csAux true l = [] ∨ ∃ c t, csAux true l = c :: t ∧ spTab c = false := by
  induction l with
  | nil => exact Or.inl rfl
  | cons c cs ih =>
    by_cases hc : spTab c
    · simpa [csAux, hc] using ih
    · exact Or.inr ⟨c, csAux false cs, by simp [csAux, hc], by simpa using hc⟩

theorem csAux_noSS : ∀ l : List Char, noSS (csAux false l) ∧ noSS (csAux true l) := by
  intro l
  induction l with
  | nil => exact ⟨rfl, rfl⟩
  | cons c cs ih =>
    by_cases hc : spTab c
    · constructor
      · simp only [csAux, if_pos hc, if_neg (by simp : ¬(false = true))]
        apply noSS_cons_head
        · intro b t hbt
          rcases csAux_true_head cs with h | ⟨c', t', hct, hsp⟩
          · rw [h] at hbt; cases hbt
          · rw [hct] at hbt
            rw [List.cons.injEq] at hbt
            rw [hbt.1] at hsp
            simp [hsp]
        · exact ih.2
      · simpa [csAux, hc] using ih.2
    · constructor
      · simp only [csAux, if_neg hc]
        exact noSS_cons_of_not c _ (by simpa using hc) ih.1
      · simp only [csAux, if_neg hc]
        exact noSS_cons_of_not c _ (by simpa using hc) ih.1

theorem csAux_fix : ∀ l : List Char, noTab l → noSS l →
    csAux false l = l ∧ ((∀ c t, l = c :: t → spTab c = false) → csAux true l = l) := by
  intro l
  induction l with
  | nil => exact fun _ _ => ⟨rfl, fun _ => rfl⟩
  | cons c cs ih =>
    intro ht hs
    rw [noTab, List.all_cons, Bool.and_eq_true] at ht
    have ihcs := ih ht.2 (noSS_tail c cs hs)
    constructor
    · by_cases hc : spTab c
      · have hcsp : c = ' ' := by
          have hnt : ¬(c = '\t') := by simpa using ht.1
          rcases (by simpa [spTab] using hc : c = ' ' ∨ c = '\t') with h | h
          · exact h
          · exact absurd h hnt
        subst hcsp
        have htrue : csAux true cs = cs := by
          apply ihcs.2
          intro d t hdt
          rw [hdt] at hs
          simp only [noSS, Bool.and_eq_true] at hs
          have h1 := hs.1
          rw [Bool.not_eq_true'] at h1
          simp only [hc] at h1
          simpa using h1
        simp [csAux, hc, htrue]
      · simp [csAux, hc, ihcs.1]
    · intro hhead
      have hc : spTab c = false := hhead c cs rfl
      simp [csAux, hc, ihcs.1]

theorem emitNl_all_nl (k : Nat) : ∀ c ∈ emitNl k, c = '\n' := by
  intro c hc
  unfold emitNl at hc
  split at hc
  · simp at hc
    exact hc
  · exact List.eq_of_mem_replicate hc

theorem emitNl_cases (k : Nat) :
    emitNl k = [] ∨ emitNl k = ['\n'] ∨ emitNl k = ['\n', '\n'] := by
  unfold emitNl
  split
  · simp
  · rename_i h
    interval_cases k
    · simp
    · simp [List.replicate]
    · simp [List.replicate]

theorem nlAux_noTab : ∀ (l : List Char) (k : Nat), noTab l → noTab (nlAux k l) := by
  intro l
  induction l with
  | nil =>
    intro k _
    rw [noTab, List.all_eq_true]
    intro c hc
    rw [emitNl_all_nl k c hc]
    decide
  | cons c cs ih =>
    intro k h
    rw [noTab, List.all_cons, Bool.and_eq_true] at h
    simp only [nlAux]
    split
    · exact ih (k + 1) h.2
    · rw [noTab, List.all_eq_true]
      intro x hx
      rcases List.mem_append.mp hx with hx' | hx'
      · rw [emitNl_all_nl k x hx']
        decide
      · rcases List.mem_cons.mp hx' with rfl | hx''
        · exact h.1
        · have := ih 0 h.2
          rw [noTab, List.all_eq_true] at this
          exact this x hx''

theorem noSS_append_of_all_not (xs z : List Char)
    (hxs : ∀ x ∈ xs, spTab x = false) (h : noSS z) : noSS (xs ++ z) := by
  induction xs with
  | nil => simpa using h
  | cons a t ih =>
    rw [List.cons_append]
    exact noSS_cons_of_not a _ (hxs a (by simp))
      (ih (fun x hx => hxs x (by simp [hx])))

theorem nlAux_head_of_pos (l : List Char) :
    ∀ k : Nat, 1 ≤ k → ∃ t, nlAux k l = '\n' :: t := by
  induction l with
  | nil =>
    intro k hk
    rcases emitNl_cases k with h | h | h
    · exfalso
      unfold emitNl at h
      split at h
      · cases h
      · cases k with
        | zero => omega
        | succ n => simp [List.replicate] at h
    · exact ⟨[], by simpa [nlAux] using h⟩
    · exact ⟨['\n'], by simpa [nlAux] using h⟩
  | cons c cs ih =>
    intro k hk
    simp only [nlAux]
    split
    · exact ih (k + 1) (by omega)
    · rcases emitNl_cases k with h | h | h
      · exfalso
        unfold emitNl at h
        split at h
        · cases h
        · cases k with
          | zero => omega
          | succ n => simp [List.replicate] at h
      · exact ⟨c :: nlAux 0 cs, by rw [h]; rfl⟩
      · exact ⟨'\n' :: c :: nlAux 0 cs, by rw [h]; rfl⟩

theorem nlAux_zero_head (l : List Char) : (nlAux 0 l).head? = l.head? := by
  cases l with
  | nil => rfl
  | cons c cs =>
    simp only [nlAux]
    split
    · rename_i hc
      obtain ⟨t, ht⟩ := nlAux_head_of_pos cs 1 (by omega)
      rw [ht, hc]
      rfl
    · have h0 : emitNl 0 = [] := rfl
      rw [h0]
      rfl

theorem nlAux_noSS : ∀ (l : List Char) (k : Nat), noSS l → noSS (nlAux k l) := by
  intro l
  induction l with
  | nil =>
    intro k _
    have : noSS (emitNl k ++ []) :=
      noSS_append_of_all_not _ _ (fun x hx => by rw [emitNl_all_nl k x hx]; rfl) rfl
    simpa using this
  | cons c cs ih =>
    intro k h
    simp only [nlAux]
    split
    · exact ih (k + 1) (noSS_tail c cs h)
    · apply noSS_append_of_all_not _ _ (fun x hx => by rw [emitNl_all_nl k x hx]; rfl)
      apply noSS_cons_head
      · intro b t hbt
        have hh : (nlAux 0 cs).head? = cs.head? := nlAux_zero_head cs
        rw [hbt] at hh
        cases cs with
        | nil => simp at hh
        | cons d u =>
          simp only [List.head?_cons] at hh
          have hbd : b = d := by simpa using hh
          rw [hbd]
          simp only [noSS, Bool.and_eq_true] at h
          have h1 := h.1
          rwa [Bool.not_eq_true'] at h1
      · exact ih 0 (noSS_tail c cs h)

theorem r3_nl_cons (a : Char) (z : List Char) (ha : ¬(a = '\n')) (h : r3 (a :: z)) :
    r3 ('\n' :: a :: z) := by
  cases z with
  | nil => rfl
  | cons b t => simp [r3, ha, r3_tail _ _ h, h]

theorem r3_emit_glue (k : Nat) (a : Char) (z : List Char) (ha : ¬(a = '\n'))
    (hz : r3 z) : r3 (emitNl k ++ a :: z) := by
  rcases emitNl_cases k with h | h | h <;> rw [h]
  · simpa using r3_cons_of_not a z ha hz
  · exact r3_nl_cons a z ha (r3_cons_of_not a z ha hz)
  · show r3 ('\n' :: '\n' :: a :: z) = true
    have h1 := r3_nl_cons a z ha (r3_cons_of_not a z ha hz)
    cases z with
    | nil => simp [r3, ha]
    | cons b t =>
      simp only [r3, Bool.and_eq_true] at h1 ⊢
      refine ⟨by simp [ha], h1⟩

theorem nlAux_r3 : ∀ (l : List Char) (k : Nat), r3 (nlAux k l) := by
  intro l
  induction l with
  | nil =>
    intro k
    rcases emitNl_cases k with h | h | h <;> simp [nlAux, h, r3]
  | cons c cs ih =>
    intro k
    simp only [nlAux]
    split
    · exact ih (k + 1)
    · rename_i hc
      exact r3_emit_glue k c (nlAux 0 cs) hc (ih 0)

theorem r3_append_right (xs ys : List Char) (h : r3 (xs ++ ys)) : r3 ys := by
  induction xs with
  | nil => simpa using h
  | cons a t ih =>
    rw [List.cons_append] at h
    exact ih (r3_tail _ _ h)

theorem nlAux_fix : ∀ (l : List Char) (k : Nat), k ≤ 2 →
    r3 (List.replicate k '\n' ++ l) → nlAux k l = List.replicate k '\n' ++ l := by
  intro l
  induction l with
  | nil =>
    intro k hk _
    simp [nlAux, emitNl, if_neg (by omega : ¬(3 ≤ k))]
  | cons c cs ih =>
    intro k hk h
    simp only [nlAux]
    split
    · rename_i hc
      subst hc
      have hk1 : k + 1 ≤ 2 := by
        rcases Nat.lt_or_ge k 2 with hlt | hge
        · omega
        · exfalso
          have hk2 : k = 2 := by omega
          rw [hk2] at h
          simp [List.replicate, r3] at h
      have hrw : List.replicate (k + 1) '\n' ++ cs = List.replicate k '\n' ++ '\n' :: cs := by
        rw [List.replicate_succ']
        simp
      have := ih (k + 1) hk1 (by rw [hrw]; exact h)
      rw [this, hrw]
    · rename_i hc
      have hcs : r3 cs := r3_tail c cs (r3_append_right _ _ h)
      have h0 := ih 0 (by omega) (by simpa using hcs)
      simp only [List.replicate, List.nil_append] at h0
      rw [h0]
      simp [emitNl, if_neg (by omega : ¬(3 ≤ k))]

theorem lstrip_eq_self_of_head (l : List Char)
    (h : ∀ c t, l = c :: t → pyWS c = false) : lstrip l = l := by
  cases l with
  | nil => rfl
  | cons c t =>
    rw [lstrip, List.dropWhile_cons, if_neg (by simp [h c t rfl])]

theorem rstrip_idem (l : List Char) : rstrip (rstrip l) = rstrip l := by
  induction l with
  | nil => rfl
  | cons c cs ih =>
    simp only [rstrip]
    split
    · rfl
    · rename_i hcond
      simp only [rstrip, ih]
      rw [if_neg hcond]

theorem strip_strip (l : List Char) : strip (strip l) = strip l := by
  unfold strip
  have hl : lstrip (rstrip (lstrip l)) = rstrip (lstrip l) := by
    apply lstrip_eq_self_of_head
    intro c t h
    obtain ⟨t0, ht0⟩ := rstrip_head_eq _ c t h
    exact lstrip_head_not_ws l c t0 ht0
  rw [hl, rstrip_idem]

theorem noSS_strip (l : List Char) (h : noSS l) : noSS (strip l) :=
  noSS_rstrip _ (noSS_dropWhile pyWS l h)

theorem r3_strip (l : List Char) (h : r3 l) : r3 (strip l) :=
  r3_rstrip _ (r3_dropWhile pyWS l h)

theorem noTab_strip (l : List Char) (h : noTab l) : noTab (strip l) :=
  noTab_rstrip _ (noTab_dropWhile pyWS l h)

/-- C7: the text normalizer clean_text is idempotent, and it maps the
empty string to the empty string.  A normalized string has no tab, no two
adjacent space-or-tab characters, no run of three newlines, and no
leading or trailing whitespace, and each normalization stage fixes
exactly such strings. -/
theorem clean_text_idempotent (x : List Char) :
    clean_text (clean_text x) = clean_text x ∧ clean_text [] = [] := by
  refine ⟨?_, rfl⟩
  by_cases hx : x = []
  · rw [hx]
    rfl
  · have hy : clean_text x = strip (collapseNL (collapseSpaces x)) := by
      rw [clean_text, if_neg hx]
    rw [hy]
    by_cases hyn : strip (collapseNL (collapseSpaces x)) = []
    · rw [clean_text, if_pos hyn, hyn]
    · rw [clean_text, if_neg hyn]
      have hnt : noTab (strip (collapseNL (collapseSpaces x))) :=
        noTab_strip _ (nlAux_noTab _ 0 (csAux_noTab x false))
      have hss : noSS (strip (collapseNL (collapseSpaces x))) :=
        noSS_strip _ (nlAux_noSS _ 0 (csAux_noSS x).1)
      have hr3 : r3 (strip (collapseNL (collapseSpaces x))) :=
        r3_strip _ (nlAux_r3 _ 0)
      have h1 : collapseSpaces (strip (collapseNL (collapseSpaces x)))
          = strip (collapseNL (collapseSpaces x)) :=
        (csAux_fix _ hnt hss).1
      have h2 : collapseNL (strip (collapseNL (collapseSpaces x)))
          = strip (collapseNL (collapseSpaces x)) := by
        have := nlAux_fix (strip (collapseNL (collapseSpaces x))) 0 (by omega)
          (by simpa using hr3)
        simpa using this
      rw [h1, h2, strip_strip]

/-! ## Claims C5 and C6: the PDF page loop and the meaningful-text gate -/

theorem strip_clean (w : List Char) : strip (clean_text w) = clean_text w := by
  by_cases hw : w = []
  · rw [hw]
    rfl
  · rw [clean_text, if_neg hw, strip_strip]

theorem pdfLoop_parts : ∀ (pages : List PageResult) (i : Nat),
    (pdfLoop i pages).1 = successParts pages := by
  intro pages
  induction pages with
  | nil => intro i; rfl
  | cons r rest ih =>
    intro i
    cases r with
    | error e =>
      simp only [pdfLoop, successParts, List.filterMap_cons]
      exact ih (i + 1)
    | ok t =>
      simp only [pdfLoop, successParts, List.filterMap_cons]
      split
      · rename_i hcond
        simp only [hcond, if_pos]
        rw [← successParts]
        simp [ih (i + 1), successParts]
      · rename_i hcond
        simp only [hcond]
        rw [← successParts]
        simp [ih (i + 1), successParts]

/-- C5 counterexample: a document with exactly one page, which extracts
the non-empty text ab, makes read_pdf_bytes fail with the
no-meaningful-text error rather than succeed with the joined text, so one
successful page is not sufficient for the call to succeed. -/
theorem page_success_does_not_imply_full_success :
    readPdfPages [Except.ok (("ab").toList)] = .error PdfErr.noMeaningfulText
    ∧ ("ab").toList ≠ []
    ∧ strip (("ab").toList) ≠ [] := by
  refine ⟨by decide, by decide, by decide⟩

/-- C5 (amended): a failing page never aborts the document or loses the
other pages: whenever at least one page yields non-whitespace text and the
cleaned blank-line join of exactly those pages keeps length at least ten,
read_pdf_bytes succeeds and returns that cleaned join; pages that raise,
and pages yielding empty or whitespace-only text, are skipped.  (When the
cleaned join is shorter than ten the call fails with the
no-meaningful-text error even though pages succeeded, which is what the
counterexample shows.) -/
theorem read_pdf_page_failure_tolerant (pages : List PageResult)
    (h1 : successParts pages ≠ [])
    (h2 : 10 ≤ (clean_text (joinBlank (successParts pages))).length) :
    readPdfPages pages = .ok (clean_text (joinBlank (successParts pages))) := by
  unfold readPdfPages
  rw [pdfLoop_parts pages 0, if_neg h1]
  rw [if_neg ?hcond]
  case hcond =>
    simp only [strip_clean]
    simp only [Bool.or_eq_true, decide_eq_true_eq, not_or]
    constructor
    · intro hnil
      rw [hnil] at h2
      simp at h2
    · omega

set_option maxRecDepth 10000 in
theorem read_pdf_page_failure_tolerant_witness :
    successParts samplePages ≠ []
    ∧ 10 ≤ (clean_text (joinBlank (successParts samplePages))).length
    ∧ readPdfPages samplePages = .ok (clean_text (joinBlank (successParts samplePages))) :=
  ⟨by decide, by decide,
    read_pdf_page_failure_tolerant samplePages (by decide) (by decide)⟩

/-- C6 counterexample: a one-page document extracting the text
a b c d e f (length eleven, six non-whitespace characters) normalizes to
itself; the claim says extraction must fail with the no-meaningful-text
error because the text has fewer than ten non-whitespace characters, but
the source compares ten against the stripped length, eleven, and
succeeds. -/
theorem meaningful_check_measures_length_not_nonws :
    readPdfPages [Except.ok (("a b c d e f").toList)] = .ok (("a b c d e f").toList)
    ∧ (("a b c d e f").toList).countP (fun c => !(pyWS c)) = 6
    ∧ 6 < 10 := by
  refine ⟨by decide, by decide, by decide⟩

/-- C6 (amended): once at least one page yielded text, extraction fails
with the no-meaningful-text error exactly when the normalized join of the
collected page texts has length below ten (the normalizer already strips
the ends, so the stripped-length test of the source is its plain length, not
its count of non-whitespace characters); otherwise the normalized text is
returned. -/
theorem read_pdf_no_meaningful_text_iff (pages : List PageResult)
    (h1 : successParts pages ≠ []) :
    readPdfPages pages = .error PdfErr.noMeaningfulText ↔
      (clean_text (joinBlank (successParts pages))).length < 10 := by
  unfold readPdfPages
  rw [pdfLoop_parts pages 0, if_neg h1]
  by_cases hlen : (clean_text (joinBlank (successParts pages))).length < 10
  · rw [if_pos ?hcond]
    · simp [hlen]
    case hcond =>
      simp only [strip_clean]
      simp only [Bool.or_eq_true, decide_eq_true_eq]
      exact Or.inr hlen
  · rw [if_neg ?hcond]
    · simp [hlen]
    case hcond =>
      simp only [strip_clean]
      simp only [Bool.or_eq_true, decide_eq_true_eq, not_or]
      constructor
      · intro hnil
        rw [hnil] at hlen
        simp at hlen
      · omega

theorem read_pdf_no_meaningful_text_iff_witness :
    successParts [Except.ok (("tiny").toList)] ≠ []
    ∧ (readPdfPages [Except.ok (("tiny").toList)] = .error PdfErr.noMeaningfulText ↔
        (clean_text (joinBlank (successParts [Except.ok (("tiny").toList)]))).length < 10) :=
  ⟨by decide, read_pdf_no_meaningful_text_iff [Except.ok (("tiny").toList)] (by decide)⟩

end StudyBuddy
